import Mathlib

/-!
Verification development for the browser client detection core of
rust-device-detector (src/parsers/client/browsers.rs and
src/parsers/client/browsers/engines.rs).

The Rust code is shallowly embedded: pure functions become Lean functions,
the statically loaded rule / engine / catalog / app-hint tables become an
explicit `Env` record (they are immutable data files outside the translated
sources), and fallible operations return `Except`.  The fixed regular
expressions of the source are embedded as executable character-list matchers
implementing exactly the leftmost-match semantics of the concrete patterns.
-/

/-- Whitespace class of the regex `\s` escape (ASCII). -/
def isWs (c : Char) : Bool :=
  c = ' ' || c = '\t' || c = '\n' || c = '\r' || c = '\x0b' || c = '\x0c'

/-- Case-insensitive character comparison used for `(?i)` patterns. -/
def ciEq (a b : Char) : Bool :=
  a.toLower = b.toLower

/-- Match a literal pattern at the head of the input, returning the rest.
`ci` selects case-insensitive comparison. -/
def litAt (ci : Bool) : List Char → List Char → Option (List Char)
  | [], s => some s
  | _ :: _, [] => none
  | p :: ps, c :: cs => if (if ci then ciEq p c else p = c) then litAt ci ps cs else none

/-- Whether the pattern occurs as a (case-sensitive) substring. -/
def containsSub (needle : List Char) : List Char → Bool
  | [] => (litAt false needle []).isSome
  | c :: cs => (litAt false needle (c :: cs)).isSome || containsSub needle cs

/-- Left trim and right trim over an explicit character predicate. -/
def trimChars (p : Char → Bool) (cs : List Char) : List Char :=
  ((cs.dropWhile p).reverse.dropWhile p).reverse

/-- Embedding of Rust `str::starts_with` on strings. -/
def strStarts (pre s : String) : Bool :=
  pre.data.isPrefixOf s.data

/-- Embedding of Rust `str::contains` on strings. -/
def strContains (s sub : String) : Bool :=
  containsSub sub.data s.data

/-- Embedding of Rust `str::to_lowercase` (ASCII range suffices here). -/
def lowerStr (s : String) : String :=
  ⟨s.data.map Char.toLower⟩

/-- Numeric value of a digit run (most significant first). -/
def digitsVal (cs : List Char) : Nat :=
  cs.foldl (fun acc c => 10 * acc + (c.toNat - '0'.toNat)) 0

/-- Split a character list at `.` separators (used by the version parser). -/
def splitDots : List Char → List (List Char)
  | [] => [[]]
  | c :: cs =>
    let rest := splitDots cs
    if c = '.' then [] :: rest
    else match rest with
      | [] => [[c]]
      | seg :: segs => (c :: seg) :: segs

/-- One dotted segment parses when it is a non-empty digit run. -/
def segToNat (seg : List Char) : Option Nat :=
  if seg ≠ [] ∧ seg.all Char.isDigit then some (digitsVal seg) else none

/-- Parse a dotted numeric version into its list of numeric components. -/
def parseVer (s : String) : Option (List Nat) :=
  (splitDots s.data).mapM segToNat

/-- Three-way comparison on naturals. -/
def natCmp (x y : Nat) : Ordering :=
  if x < y then .lt else if y < x then .gt else .eq

/-- Compare numeric component lists, implicitly zero-padding the shorter one,
which is how the `version_compare` crate equates `1` and `1.0`. -/
def padCmp : List Nat → List Nat → Ordering
  | [], ys => if ys.all (fun y => y = 0) then .eq else .lt
  | x :: xs, [] => if x = 0 && xs.all (fun y => y = 0) then .eq else .gt
  | x :: xs, y :: ys =>
    match natCmp x y with
    | .eq => padCmp xs ys
    | o => o

/-- Embedding of `version_compare::compare`: semantic version comparison,
`none` standing for the crate's `Err` on versions outside the dotted-numeric
fragment (the only fragment this code base feeds into it). -/
def version_compare (a b : String) : Option Ordering :=
  match parseVer a, parseVer b with
  | some xs, some ys => some (padCmp xs ys)
  | _, _ => none

/-- Stable insertion of an element into a list relative to a boolean
less-or-equal test: the element goes before the first entry it is not
greater-or-equal to, hence after existing ties. -/
def stableInsert (le : α → α → Bool) (x : α) : List α → List α
  | [] => [x]
  | y :: ys => if le x y then x :: y :: ys else y :: stableInsert le x ys

/-- Embedding of Rust's stable `sort_by` / `sort_by_key` (slice::sort_by is
a stable merge sort): for a total preorder a stable insertion sort computes
the same list, and on an input whose adjacent pairs are already ascending
under the comparator every stable sort is the identity — which covers the
non-transitive tie cases a malformed threshold introduces.  When the
comparator is not a total order, Rust leaves the resulting order
unspecified and it further depends on the `HashMap` iteration order the
caller feeds in; the embedded list order stands for one such order. -/
def sort_by (le : α → α → Bool) : List α → List α
  | [] => []
  | x :: xs => stableInsert le x (sort_by le xs)

theorem natCmp_swap (x y : Nat) : natCmp y x = (natCmp x y).swap := by
  unfold natCmp
  rcases Nat.lt_trichotomy x y with h | h | h
  · simp [h, Nat.not_lt.mpr (Nat.le_of_lt h), Ordering.swap]
  · simp [h, Ordering.swap]
  · simp [h, Nat.not_lt.mpr (Nat.le_of_lt h), Ordering.swap]

theorem padCmp_swap : ∀ xs ys : List Nat, padCmp ys xs = (padCmp xs ys).swap := by
  intro xs
  induction xs with
  | nil =>
    intro ys
    cases ys with
    | nil => rfl
    | cons y ys =>
      by_cases h : (y = 0 && ys.all (fun z => z = 0)) = true <;>
        simp [padCmp, List.all_cons, h, Ordering.swap]
  | cons x xs ih =>
    intro ys
    cases ys with
    | nil =>
      by_cases h : (x = 0 && xs.all (fun z => z = 0)) = true <;>
        simp [padCmp, List.all_cons, h, Ordering.swap]
    | cons y ys =>
      simp only [padCmp, natCmp_swap x y]
      cases hc : natCmp x y <;> simp [Ordering.swap, ih ys]

theorem version_compare_swap (a b : String) :
    version_compare b a = (version_compare a b).map Ordering.swap := by
  unfold version_compare
  cases ha : parseVer a <;> cases hb : parseVer b <;> simp only [Option.map]
  case some.some xs ys => rw [padCmp_swap xs ys]

theorem version_compare_lt_gt {a b : String}
    (h : version_compare a b = some .lt) : version_compare b a = some .gt := by
  rw [version_compare_swap, h]; rfl

/-! ### Embedded regular expression matchers

Each definition below executes one concrete pattern of the source with
leftmost-match semantics; `.`/`.+` never cross a newline, mirroring the
default behaviour of the `fancy_regex` crate. -/

/-- Character class `[0-9\.]` of the rv-token capture. -/
def isVerChar (c : Char) : Bool :=
  c.isDigit || c = '.'

/-- Greedy continuation of the capture `\d+(?:\.\d+)*`: digits, plus
dot-separated digit groups, stopping before a dot not followed by a digit. -/
def verCore : List Char → List Char
  | [] => []
  | c :: cs =>
    if c.isDigit then c :: verCore cs
    else if c = '.' then
      match cs with
      | [] => []
      | d :: ds => if d.isDigit then '.' :: d :: verCore ds else []
    else []

/-- Capture of `(\d+(?:\.\d+)*)` anchored at the head of the input. -/
def capDotted : List Char → Option (List Char)
  | [] => none
  | c :: cs => if c.isDigit then some (verCore (c :: cs)) else none

/-- Capture of `(\d+[\.\d]+)` anchored at the head of the input: a maximal
digits-and-dots run that starts with a digit and has length at least two. -/
def capVer2 (cs : List Char) : Option (List Char) :=
  match cs with
  | [] => none
  | c :: _ =>
    if c.isDigit then
      let run := cs.takeWhile isVerChar
      if 2 ≤ run.length then some run else none
    else none

/-- Scan for `(?:g|cl)ecko/[0-9]{8,10}` with the preceding `.*` not allowed
to cross a newline; as the digit group ends the pattern, eight or more
digits after the token suffice. -/
def geckoTailScan (ci : Bool) : List Char → Bool
  | [] => false
  | c :: cs =>
    (match litAt ci "gecko/".data (c :: cs) with
     | some rest => 8 ≤ (rest.takeWhile Char.isDigit).length
     | none => false) ||
    (match litAt ci "clecko/".data (c :: cs) with
     | some rest => 8 ≤ (rest.takeWhile Char.isDigit).length
     | none => false) ||
    (if c = '\n' then false else geckoTailScan ci cs)

/-- Try the rv pattern `[ ](?:rv[: ]([0-9\.]+)).*(?:g|cl)ecko/[0-9]{8,10}`
anchored at the current position; the capture is the maximal `[0-9\.]+` run
after the `rv:` / `rv ` token. -/
def rvTryAt (ci : Bool) : List Char → Option String
  | ' ' :: rest =>
    match litAt ci "rv".data rest with
    | some (c :: r2) =>
      if c = ':' || c = ' ' then
        let ver := r2.takeWhile isVerChar
        if ver ≠ [] && geckoTailScan ci (r2.drop ver.length) then
          some ⟨ver⟩
        else none
      else none
    | _ => none
  | _ => none

/-- Leftmost match of the Gecko/Clecko rv pattern; `ci` distinguishes the
case-insensitive variant of browsers.rs from the case-sensitive variant of
engines.rs. -/
def rvVersionCapture (ci : Bool) : List Char → Option String
  | [] => none
  | c :: cs =>
    match rvTryAt ci (c :: cs) with
    | some v => some v
    | none => rvVersionCapture ci cs

/-- Tail of the generic engine pattern, `\s*[/_]?\s*(\d+(?:\.\d+)*)`. -/
def sepVersionAt (cs : List Char) : Option (List Char) :=
  let cs1 := cs.dropWhile isWs
  let cs2 := match cs1 with
    | c :: rest => if c = '/' || c = '_' then rest else cs1
    | [] => cs1
  capDotted (cs2.dropWhile isWs)

/-- Leftmost match of `(?i)(?:alt₁|alt₂|…)\s*[/_]?\s*(\d+(?:\.\d+)*)`,
the generic engine-version pattern of engines.rs; alternatives are tried in
order at every position. -/
def tokenVersionCapture (alts : List (List Char)) : List Char → Option String
  | [] => none
  | c :: cs =>
    match alts.findSome? (fun a => (litAt true a (c :: cs)).bind sepVersionAt) with
    | some v => some ⟨v⟩
    | none => tokenVersionCapture alts cs

/-- Modelled from the spec: the generic `<token>[/_ ]?<version>` substitution
pattern built by the shared bounded pattern cache (`LimitedUserMatchRegex` in
src/parsers/utils.rs, which is not part of the translated sources).  The
token alternatives are matched case-insensitively, followed by an optional
single `/`, `_` or space and the captured digits-and-dots version run. -/
def specTokenVersionCapture (alts : List (List Char)) : List Char → Option String
  | [] => none
  | c :: cs =>
    match alts.findSome? (fun a =>
        (litAt true a (c :: cs)).bind (fun rest =>
          let rest1 := match rest with
            | r :: rs => if r = '/' || r = '_' || r = ' ' then rs else rest
            | [] => rest
          capDotted rest1)) with
    | some v => some ⟨v⟩
    | none => specTokenVersionCapture alts cs

/-- Leftmost occurrence of `<app>/(\d+[\.\d]+)` with the app identifier
matched literally (its only escaped metacharacter, `.`, matches itself). -/
def appVersionSearch (app : List Char) : List Char → Option String
  | [] => none
  | c :: cs =>
    match (litAt false (app ++ ['/']) (c :: cs)).bind capVer2 with
    | some v => some ⟨v⟩
    | none => appVersionSearch app cs

/-- Scan for `OPR/(\d+[\.\d]+)` without crossing a newline. -/
def oprScan : List Char → Option (List Char)
  | [] => none
  | c :: cs =>
    match (litAt false "OPR/".data (c :: cs)).bind capVer2 with
    | some v => some v
    | none => if c = '\n' then none else oprScan cs

/-- Leftmost match of `Mobile.+OPR/(\d+[\.\d]+)`: a literal `Mobile`, at
least one further character, then the OPR version capture. -/
def operaMobileCapture : List Char → Option String
  | [] => none
  | c :: cs =>
    match litAt false "Mobile".data (c :: cs) with
    | some (c0 :: rest2) =>
      match (if c0 = '\n' then none else oprScan rest2) with
      | some v => some ⟨v⟩
      | none => operaMobileCapture cs
    | _ => operaMobileCapture cs

/-- Leftmost match of `Chrome/(\d+[\.\d]+)`. -/
def chromeVersionCapture : List Char → Option String
  | [] => none
  | c :: cs =>
    match (litAt false "Chrome/".data (c :: cs)).bind capVer2 with
    | some v => some ⟨v⟩
    | none => chromeVersionCapture cs

/-- Scan for ` Safari/537.36` where the `.` of the pattern is an unescaped
wildcard matching any non-newline character. -/
def safariScan : List Char → Bool
  | [] => false
  | c :: cs =>
    (match litAt false " Safari/537".data (c :: cs) with
     | some (x :: r2) => x ≠ '\n' && (litAt false "36".data r2).isSome
     | _ => false) ||
    (if c = '\n' then false else safariScan cs)

/-- Match of the generic Blink signature `Chrome/.+ Safari/537.36`. -/
def blinkSignatureMatch : List Char → Bool
  | [] => false
  | c :: cs =>
    (match litAt false "Chrome/".data (c :: cs) with
     | some (c0 :: rest2) => c0 ≠ '\n' && safariScan rest2
     | _ => false) ||
    blinkSignatureMatch cs

/-! ### Data model -/

/-- Client kind tag; this core only produces browsers. -/
inductive ClientType where
  | Browser
deriving DecidableEq, Repr

/-- Modelled from the spec: a catalog entry of the browser catalog
(`known_browsers::AvailableBrowsers`, outside the translated sources) —
"name, optional family, other descriptive metadata". -/
structure BrowserEntry where
  name : String
  family : Option String
deriving DecidableEq, Repr

/-- The produced client record, with the fields the browser core touches. -/
structure Client where
  name : String
  version : Option String
  type : ClientType
  engine : Option String
  engine_version : Option String
  browser : Option BrowserEntry
deriving DecidableEq, Repr

/-- Modelled from the spec: the structured client-hints record
(`client_hints::ClientHint`, outside the translated sources) — ordered
(brand, version) pairs, optional full UA version, optional app identifier. -/
structure ClientHint where
  full_version_list : List (String × String)
  ua_full_version : Option String
  app : Option String

/-- The engine threshold table attached to a rule (`BrowserEngine` in
browsers.rs): optional default plus (version-threshold, engine) pairs.  The
Rust `HashMap` iterates in arbitrary order; the list order stands for one
such order, and the code sorts it before use. -/
structure BrowserEngineSpec where
  default : Option String
  versions : List (String × String)

/-- One entry of the ordered browser rule list (`BrowserClientEntry`).  The
compiled match pattern is embedded as its capture function: `none` is "no
match", `some groups` gives the contents of capture groups 1,2,… (`none`
for a group that did not participate).  `is_match` agreeing with
`captures.isSome` is a property of the regex crate, so matching is derived
from the capture function. -/
structure RuleEntry where
  name : String
  captures : String → Option (List (Option String))
  version : String
  engine : Option BrowserEngineSpec

/-- The immutable process-wide tables `lookup` reads: the ordered browser
rule list (regexes/client/browsers.yml), the ordered engine-rule list
(regexes/client/browser_engine.yml, embedded as name plus match predicate),
the browser catalog search, and the app-hint table
(`super::hints::browsers::get_hint`); the latter two are modelled from the
spec (`BrowserCatalog.searchByName` / `AppHintTable.get`) since their
modules are outside the translated sources. -/
structure Env where
  clientList : List RuleEntry
  engineRules : List (String × (String → Bool))
  search_by_name : String → Option BrowserEntry
  appHints : String → Option String

/-- The hardcoded engine vocabulary `AVAILABLE_ENGINES` of engines.rs. -/
def AVAILABLE_ENGINES : List String :=
  ["WebKit", "Blink", "Trident", "Text-based", "Dillo", "iCab", "Elektra",
   "Presto", "Clecko", "Gecko", "KHTML", "NetFront", "Edge", "NetSurf",
   "Servo", "Goanna", "EkiohFlow", "Arachne", "LibWeb"]

/-- The `CLIENT_HINT_MAPPING` table of browsers.rs: canonical name paired
with the hint brands resolving to it. -/
def CLIENT_HINT_MAPPING : List (String × List String) :=
  [("Chrome", ["Google Chrome"]),
   ("Chrome Webview", ["Android WebView"]),
   ("DuckDuckGo Privacy Browser", ["DuckDuckGo"]),
   ("Edge WebView", ["Microsoft Edge WebView2"]),
   ("Microsoft Edge", ["Edge"]),
   ("Norton Private Browser", ["Norton Secure Browser"]),
   ("Vewd Browser", ["Vewd Core"]),
   ("Mi Browser", ["Miui Browser"])]

/-- Modelled from the spec: `ClientHintMapping::apply`
(client_hints.rs, outside the translated sources) — "canonical catalog name
→ ordered list of Client-Hint brand strings resolving to it; unmapped
brands pass through unchanged". -/
def clientHintMappingApply (table : List (String × List String)) (brand : String) : String :=
  match table.find? (fun p => p.2.contains brand) with
  | some p => p.1
  | none => brand

/-- `BROWSERS_NEEDING_EARLY_VERSION_HANDLING` of browsers.rs. -/
def BROWSERS_NEEDING_EARLY_VERSION_HANDLING : List String :=
  ["Atom", "Huawei Browser", "Mi Browser"]

/-- `BROWSERS_USING_UA_VERSION_FINAL` of browsers.rs. -/
def BROWSERS_USING_UA_VERSION_FINAL : List String :=
  ["Aloha Browser", "JioSphere", "mCent", "Opera", "Opera Mini", "Opera Mobile"]

/-- The fixed Blink-family set tested in the hints branch of `lookup`. -/
def BLINK_FAMILY_BROWSERS : List String :=
  ["Chrome", "Chromium", "Microsoft Edge", "Edge", "CCleaner",
   "AVG Secure Browser", "Avast Secure Browser"]

/-- `ALWAYS_BLINK_APPS` of the app-hint post-processor. -/
def ALWAYS_BLINK_APPS : List String :=
  ["TV-Browser Internet", "XnBrowse", "Open Browser Lite"]

/-! ### Engine resolution (engines.rs) -/

/-- `engines::lookup`: scan the ordered engine-rule list, first match wins;
otherwise fall back to case-insensitive equality of the whole input against
the fixed engine vocabulary. -/
def engines_lookup (env : Env) (name : String) : Option String :=
  match env.engineRules.find? (fun r => r.2 name) with
  | some r => some r.1
  | none => AVAILABLE_ENGINES.find? (fun engine => lowerStr engine = lowerStr name)

/-- Token alternatives substituted for an engine in `detect_engine_version`
(the char class `[o0]` of `Chr[o0]me` is expanded into two alternatives). -/
def detectTokenAlts (engine : String) : List (List Char) :=
  if engine = "Blink" then
    ["Chrome".data, "Chr0me".data, "Chromium".data, "Cronet".data]
  else if engine = "Arachne" then ["Arachne/5.".data]
  else if engine = "LibWeb" then ["LibWeb+LibJs".data]
  else [engine.data]

/-- `engines::detect_engine_version`: empty engine gives none; Gecko and
Clecko use the (case-sensitive) rv pattern and return none when it fails;
all other engines use the generic case-insensitive token pattern. -/
def detect_engine_version (ua engine : String) : Option String :=
  if engine = "" then none
  else if engine = "Gecko" ∨ engine = "Clecko" then
    rvVersionCapture false ua.data
  else
    tokenVersionCapture (detectTokenAlts engine) ua.data

/-! ### Engine resolution helpers of browsers.rs -/

/-- Token alternatives of `BrowserClientList::engine_version` (these differ
from `detect_engine_version`: the Blink token has no `Chromium`). -/
def browserTokenAlts (engine : String) : List (List Char) :=
  if engine = "Blink" then ["Chrome".data, "Chr0me".data, "Cronet".data]
  else if engine = "Arachne" then ["Arachne/5.".data]
  else if engine = "LibWeb" then ["LibWeb+LibJs".data]
  else [engine.data]

/-- `BrowserClientList::engine_version`: empty engine gives none; for Gecko
and Clecko the case-insensitive rv pattern is tried first and its capture
returned on success, but on failure control falls through to the generic
cached token pattern, which is also what every other engine uses. -/
def browser_engine_version (ua engine : String) : Option String :=
  if engine = "" then none
  else
    let rv := if engine = "Gecko" ∨ engine = "Clecko" then
        rvVersionCapture true ua.data
      else none
    match rv with
    | some v => some v
    | none => specTokenVersionCapture (browserTokenAlts engine) ua.data

/-- Whether a threshold qualifies: `version_compare(version, threshold)`
came back `Ok(Eq)` or `Ok(Gt)` (an `Err` comparison merely skips). -/
def thresholdQual (version threshold : String) : Bool :=
  match version_compare version threshold with
  | some .eq => true
  | some .gt => true
  | _ => false

/-- The ascending comparator the code sorts threshold pairs with:
`version_compare` with `Err` collapsed to `Eq`. -/
def thresholdLe (a b : String × String) : Bool :=
  ((version_compare a.1 b.1).getD .eq) ≠ .gt

/-- `BrowserClientList::engine`: sort the (threshold, engine) pairs
ascending, keep the engine of the last qualifying threshold, fall back to
the spec default, and if the result is still absent or the empty string run
the global engine scan `engines::lookup`. -/
def browser_engine (env : Env) (ua : String) (spec : BrowserEngineSpec)
    (version : String) : Option String :=
  let sorted := sort_by thresholdLe spec.versions
  let sel := sorted.foldl
    (fun acc p => if thresholdQual version p.1 then some p.2 else acc) none
  let sel := match sel with
    | some e => some e
    | none => spec.default
  if sel = none ∨ sel = some "" then engines_lookup env ua else sel

/-! ### Rule matching (BrowserClientList::lookup) -/

/-- Contents of capture group `n` (1-based as in `$1`), empty when the group
is absent or did not participate, as `Captures::expand` substitutes. -/
def groupGet (caps : List (Option String)) (n : Nat) : String :=
  match n with
  | 0 => ""
  | k + 1 => ((caps.get? k).getD none).getD ""

/-- Worker for template expansion: the optional state carries a pending
`$`-reference (accumulated group number, and whether a digit was seen). -/
def expandGo (caps : List (Option String)) : Option (Nat × Bool) → List Char → List Char
  | none, [] => []
  | some (acc, hd), [] => if hd then (groupGet caps acc).data else ['$']
  | none, c :: cs =>
    if c = '$' then expandGo caps (some (0, false)) cs
    else c :: expandGo caps none cs
  | some (acc, hd), c :: cs =>
    if c.isDigit then expandGo caps (some (10 * acc + (c.toNat - '0'.toNat), true)) cs
    else
      (if hd then (groupGet caps acc).data else ['$']) ++
      (if c = '$' then expandGo caps (some (0, false)) cs
       else c :: expandGo caps none cs)

/-- Embedding of `Captures::expand` for the `$1`-style templates the rule
files use: group references expand to their capture, absent groups to the
empty string. -/
def expandTemplate (caps : List (Option String)) (tmpl : String) : String :=
  ⟨expandGo caps none tmpl.data⟩

/-- `version.ends_with(['.', ' '])` of the trimming step. -/
def endsWithDotSpace (cs : List Char) : Bool :=
  match cs.getLast? with
  | some c => c = '.' || c = ' '
  | none => false

/-- `trim_end_matches(['.', ' '])`. -/
def trimTrailingDotSpace (cs : List Char) : List Char :=
  (cs.reverse.dropWhile (fun c => c = '.' || c = ' ')).reverse

/-- The first-match-wins scan over the ordered rule list, building the UA
candidate exactly as `BrowserClientList::lookup` does. -/
def ruleScan (env : Env) (ua : String) : List RuleEntry → Option Client
  | [] => none
  | entry :: rest =>
    match entry.captures ua with
    | none => ruleScan env ua rest
    | some caps =>
      let version0 := expandTemplate caps entry.version
      let version :=
        if endsWithDotSpace version0.data then ⟨trimTrailingDotSpace version0.data⟩
        else version0
      let name := expandTemplate caps entry.name
      let engine0 : Option String :=
        match entry.engine with
        | some spec => browser_engine env ua spec version
        | none => none
      let engine :=
        match engine0 with
        | some e => some e
        | none => engines_lookup env ua
      let engine_version :=
        match engine with
        | some e => browser_engine_version ua e
        | none => none
      let browser := env.search_by_name name
      some { name := name,
             version := if version = "" then none else some version,
             type := .Browser,
             engine := engine,
             engine_version := engine_version,
             browser := browser }

/-- `BrowserClientList::lookup` over the loaded rule table. -/
def browser_list_lookup (env : Env) (ua : String) : Option Client :=
  ruleScan env ua env.clientList

/-! ### The hints candidate -/

/-- The survivors of the brand loop: each (brand, version) pair whose
alias-mapped, trimmed brand has a catalog hit, keeping the original brand
and version alongside the catalog entry. -/
def hintSurvivors (env : Env) (ch : ClientHint) : List (String × String × BrowserEntry) :=
  ch.full_version_list.filterMap (fun p =>
    let brand := clientHintMappingApply CLIENT_HINT_MAPPING p.1
    (env.search_by_name ⟨trimChars isWs brand.data⟩).map (fun e => (p.1, p.2, e)))

/-- The sort key of `sort_by_key`: the raw hint brand is `"Chromium"` or
`"Microsoft Edge"`. -/
def isCompatBrand (b : String) : Bool :=
  b = "Chromium" || b = "Microsoft Edge"

/-- `possible_results.sort_by_key(|x| x.0 == "Chromium" || x.0 == "Microsoft
Edge")`: a stable sort on a Bool key, sending the compatibility brands to
the end. -/
def orderSurvivors (l : List (String × String × BrowserEntry)) :
    List (String × String × BrowserEntry) :=
  sort_by (fun a b => !(isCompatBrand a.1) || isCompatBrand b.1) l

/-- The hints-derived candidate of `lookup` (its `client_from_hints` before
reconciliation): pick the first ordered survivor, take the full UA version
from the hints if present else the brand version, and run the Blink-family
engine arbitration. -/
def mkHintsClient (env : Env) (ua : String) : Option ClientHint → Option Client
  | none => none
  | some ch =>
    match orderSurvivors (hintSurvivors env ch) with
    | [] => none
    | (_, brandVersion, entry) :: _ =>
      let version : Option String :=
        match ch.ua_full_version with
        | some v => some v
        | none => some brandVersion
      let enginePair : Option String × Option String :=
        if BLINK_FAMILY_BROWSERS.contains entry.name then
          let ua_engine_version := detect_engine_version ua "Blink"
          let client_hints_version := version
          let engine_version :=
            if entry.name ≠ "Iridium" then
              match ua_engine_version, client_hints_version with
              | some uav, some chv =>
                if version_compare chv uav = some .gt then some chv else some uav
              | uav, chv => chv.or uav
            else ua_engine_version
          (some "Blink", engine_version)
        else (none, none)
      some { name := entry.name,
             version := version,
             type := .Browser,
             engine := enginePair.1,
             engine_version := enginePair.2,
             browser := some entry }

/-! ### Reconciliation pipeline -/

/-- Reconciliation: the version reported by the hints starts with one of
2020–2024, so the client is Iridium. -/
def stepIridium (c : Client) : Client :=
  match c.version with
  | some v =>
    if ["2020", "2021", "2022", "2023", "2024"].any (fun y => strStarts y v) then
      { c with name := "Iridium" }
    else c
  | none => c

/-- Reconciliation: hints version starting `15` with a UA version starting
`114` is 360 Secure Browser; engine data is copied from the UA candidate. -/
def step360 (uaC : Option Client) (c : Client) : Client :=
  match c.version, uaC with
  | some hv, some u =>
    match u.version with
    | some uv =>
      if strStarts "15" hv ∧ strStarts "114" uv then
        { c with name := "360 Secure Browser",
                 engine := u.engine,
                 engine_version := u.engine_version }
      else c
    | none => c
  | _, _ => c

/-- Reconciliation: browsers in the early-handling list take the UA
candidate's version (absent when there is no UA candidate). -/
def stepEarlyVersion (uaC : Option Client) (c : Client) : Client :=
  if BROWSERS_NEEDING_EARLY_VERSION_HANDLING.contains c.name then
    { c with version := uaC.bind (fun u => u.version) }
  else c

/-- Reconciliation: DuckDuckGo Privacy Browser reports no version. -/
def stepDuckDuckGo (c : Client) : Client :=
  if c.name = "DuckDuckGo Privacy Browser" then { c with version := none } else c

/-- Reconciliation: Vewd Browser takes engine and engine version from the
UA candidate (cleared when there is none). -/
def stepVewd (uaC : Option Client) (c : Client) : Client :=
  if c.name = "Vewd Browser" then
    { c with engine := uaC.bind (fun u => u.engine),
             engine_version := uaC.bind (fun u => u.engine_version) }
  else c

/-- Reconciliation: a hints candidate named Chromium defers to a UA
candidate with a different name, taking its name and version. -/
def stepChromium (uaC : Option Client) (c : Client) : Client :=
  if c.name = "Chromium" then
    match uaC with
    | some u =>
      if u.name ≠ "Chromium" then { c with name := u.name, version := u.version } else c
    | none => c
  else c

/-- Reconciliation: the UA candidate's name is the hints name plus
`" Mobile"`, so the mobile name wins. -/
def stepMobileSuffix (uaC : Option Client) (c : Client) : Client :=
  match uaC with
  | some u => if u.name = c.name ++ " Mobile" then { c with name := u.name } else c
  | none => c

/-- The engine-version merge shared by the family and same-name steps: with
both versions present the UA one wins only when strictly greater, otherwise
the UA version fills an absent hints version. -/
def mergedEv (u c : Client) : Option String :=
  match u.engine_version, c.engine_version with
  | some uev, some cev =>
    if version_compare uev cev = some .gt then some uev else some cev
  | _, _ => if c.engine_version = none then u.engine_version else c.engine_version

/-- Reconciliation: different names but both candidates carry the same
present catalog family, so the UA engine wins and versions merge. -/
def stepFamilyMerge (uaC : Option Client) (c : Client) : Client :=
  match uaC with
  | some u =>
    if c.name ≠ u.name ∧
       (c.browser.bind (fun b => b.family)).isSome ∧
       c.browser.map (fun b => b.family) = u.browser.map (fun b => b.family) then
      { c with engine := u.engine, engine_version := mergedEv u c }
    else c
  | none => c

/-- Reconciliation: equal names merge engines the same way. -/
def stepSameName (uaC : Option Client) (c : Client) : Client :=
  match uaC with
  | some u =>
    if c.name = u.name then
      { c with engine := u.engine, engine_version := mergedEv u c }
    else c
  | none => c

/-- Reconciliation: the UA version extends the hints version (string prefix,
strictly longer), so the more detailed UA version wins. -/
def stepDetailedVersion (uaC : Option Client) (c : Client) : Client :=
  match uaC with
  | some u =>
    match u.version, c.version with
    | some uv, some cv =>
      if strStarts cv uv ∧ cv.length < uv.length then { c with version := some uv } else c
    | _, _ => c
  | none => c

/-- Reconciliation: browsers in the final-override list take a non-empty UA
version unconditionally. -/
def stepFinalUaVersion (uaC : Option Client) (c : Client) : Client :=
  match uaC with
  | some u =>
    if (u.version.getD "") ≠ "" then
      if BROWSERS_USING_UA_VERSION_FINAL.contains c.name then
        { c with version := u.version }
      else c
    else c
  | none => c

/-- The reconciliation pipeline applied to the hints candidate, in the exact
source order of `lookup`. -/
def reconcile (uaC : Option Client) (c : Client) : Client :=
  stepFinalUaVersion uaC (stepDetailedVersion uaC (stepSameName uaC
    (stepFamilyMerge uaC (stepMobileSuffix uaC (stepChromium uaC
      (stepVewd uaC (stepDuckDuckGo (stepEarlyVersion uaC
        (step360 uaC (stepIridium c))))))))))

/-! ### Post-processors and lookup -/

/-- Opera-Mobile rewrite: a Chrome Webview whose UA carries ` OPR/` is
re-detected through the `Mobile.+OPR/…` pattern, becoming Opera Mobile on
Blink with the captured versions and re-fetched catalog metadata. -/
def postOperaMobile (env : Env) (ua : String) (c : Client) : Client :=
  if c.name = "Chrome Webview" ∧ strContains ua " OPR/" then
    match operaMobileCapture ua.data with
    | some v =>
      let c1 := { c with name := "Opera Mobile", version := some v,
                         engine := some "Blink" }
      let c2 :=
        match chromeVersionCapture ua.data with
        | some cv => { c1 with engine_version := some cv }
        | none => c1
      match env.search_by_name "Opera Mobile" with
      | some b => { c2 with browser := some b }
      | none => c2
    | none => c
  else c

/-- Scanner deciding whether the dynamically built pattern of
`extract_version_from_ua` compiles: depth-counted group parentheses,
skipping escaped characters and bracket classes.  This models the
`fancy_regex` compilation of patterns of the shape used there — unbalanced
groups, unterminated escapes and unterminated classes are rejected; the
remaining constructs appearing in these patterns compile. -/
def patScan : List Char → Nat → Bool → Bool
  | [], d, inClass => d = 0 && !inClass
  | '\\' :: rest, d, inClass =>
    match rest with
    | [] => false
    | _ :: rest2 => patScan rest2 d inClass
  | c :: rest, d, inClass =>
    if inClass then patScan rest d (c ≠ ']')
    else if c = '[' then patScan rest d true
    else if c = '(' then patScan rest (d + 1) false
    else if c = ')' then
      match d with
      | 0 => false
      | d' + 1 => patScan rest d' false
    else patScan rest d false

/-- `extract_version_from_ua`: escape only the dots of the app hint, build
`<escaped>/(\d+[\.\d]+)`, and compile it per call — a pattern that fails to
compile propagates an error.  On success the escaped hint matches the
literal identifier (true for identifiers free of regex metacharacters other
than `.`, which covers every input considered here). -/
def extract_version_from_ua (ua app_hint : String) : Except Unit (Option String) :=
  let pattern := app_hint.data.foldr
    (fun c acc => (if c = '.' then ['\\', '.'] else [c]) ++ acc)
    "/(\\d+[\\.\\d]+)".data
  if patScan pattern 0 false then .ok (appVersionSearch app_hint.data ua.data)
  else .error ()

/-- App-hint override: an app identifier mapping to a name different from
the current one renames the client, re-derives the version by searching the
UA for `<escaped app-hint>/<version>`, and for Blink-signature UAs or
always-Blink apps installs the Blink engine and re-fetched metadata with a
defaulted family. -/
def postAppHint (env : Env) (ua : String) (chO : Option ClientHint) (c : Client) :
    Except Unit Client :=
  match chO with
  | none => .ok c
  | some ch =>
    match ch.app with
    | none => .ok c
    | some app_hint =>
      match env.appHints app_hint with
      | none => .ok c
      | some app_name =>
        if c.name ≠ app_name then do
          let ver ← extract_version_from_ua ua app_hint
          let c1 := { c with name := app_name, version := ver }
          match env.search_by_name app_name with
          | some browser =>
            if blinkSignatureMatch ua.data ∨ ALWAYS_BLINK_APPS.contains app_name then
              let c2 := { c1 with engine := some "Blink",
                                  engine_version := browser_engine_version ua "Blink" }
              let cb :=
                if browser.family = none then { browser with family := some "Chrome" }
                else browser
              .ok { c2 with browser := some cb }
            else .ok c1
          | none => .ok c1
        else .ok c

/-- The final fixups: Flow Browser on Blink drops its engine version, and a
client named Every Browser (that carries an engine) becomes Blink with no
engine version. -/
def postFinal (c : Client) : Client :=
  match c.engine with
  | some engine =>
    let c1 :=
      if engine = "Blink" ∧ c.name = "Flow Browser" then { c with engine_version := none }
      else c
    if c1.name = "Every Browser" then
      { c1 with engine := some "Blink", engine_version := none }
    else c1
  | none => c

/-- The toplevel `lookup(ua, client_hints)` pipeline of browsers.rs with the
final fixups not yet applied. -/
def lookupPreFinal (env : Env) (ua : String) (client_hints : Option ClientHint) :
    Except Unit (Option Client) := do
  let client_from_ua := browser_list_lookup env ua
  let client_from_hints :=
    (mkHintsClient env ua client_hints).map (reconcile client_from_ua)
  let res := client_from_hints.or client_from_ua
  let res := res.map (postOperaMobile env ua)
  match res with
  | some c => (postAppHint env ua client_hints c).map some
  | none => pure none

/-- The toplevel `lookup(ua, client_hints)` of browsers.rs. -/
def lookup (env : Env) (ua : String) (client_hints : Option ClientHint) :
    Except Unit (Option Client) :=
  (lookupPreFinal env ua client_hints).map (fun res => res.map postFinal)

/-! ### Helper lemmas on the stable sort -/

theorem stableInsert_front {le : α → α → Bool} {x : α} {l : List α}
    (h : ∀ y, l.head? = some y → le x y = true) :
    stableInsert le x l = x :: l := by
  cases l with
  | nil => rfl
  | cons y ys => simp [stableInsert, h y rfl]

theorem stableInsert_skip {le : α → α → Bool} {x : α} :
    ∀ {l1 : List α}, (∀ y ∈ l1, le x y = false) → ∀ l2,
      stableInsert le x (l1 ++ l2) = l1 ++ stableInsert le x l2 := by
  intro l1
  induction l1 with
  | nil => intro _ l2; rfl
  | cons y ys ih =>
    intro h l2
    have hy : le x y = false := h y (by simp)
    simp only [List.cons_append, stableInsert, hy]
    simp only [Bool.false_eq_true, if_false, List.append_eq]
    rw [ih (fun z hz => h z (by simp [hz])) l2]

/-- Rust's stable sort on a Bool key is the stable partition: the false-keyed
elements in order, then the true-keyed elements in order. -/
theorem sort_by_bool_key (key : α → Bool) (l : List α) :
    sort_by (fun a b => !key a || key b) l =
      l.filter (fun x => !key x) ++ l.filter key := by
  induction l with
  | nil => rfl
  | cons x xs ih =>
    simp only [sort_by, ih]
    by_cases hk : key x
    · have hskip : ∀ y ∈ xs.filter (fun z => !key z),
          (!key x || key y) = false := by
        intro y hy
        have := List.of_mem_filter hy
        simp at this
        simp [hk, this]
      rw [stableInsert_skip hskip]
      have hfront : stableInsert (fun a b => !key a || key b) x (xs.filter key) =
          x :: xs.filter key := by
        apply stableInsert_front
        intro y hy
        have hmem := List.mem_of_mem_head? hy
        have := List.of_mem_filter hmem
        simp [hk, this]
      rw [hfront]
      simp [List.filter_cons, hk]
    · have hfront : stableInsert (fun a b => !key a || key b) x
          (xs.filter (fun z => !key z) ++ xs.filter key) =
          x :: (xs.filter (fun z => !key z) ++ xs.filter key) := by
        apply stableInsert_front
        intro y _
        simp [hk]
      rw [hfront]
      simp [List.filter_cons, hk]

/-- Sorting an already pairwise-ascending list is the identity. -/
theorem sort_by_pairwise_id {le : α → α → Bool} :
    ∀ {l : List α}, l.Pairwise (fun a b => le a b = true) → sort_by le l = l := by
  intro l
  induction l with
  | nil => intro _; rfl
  | cons x xs ih =>
    intro h
    rcases List.pairwise_cons.mp h with ⟨hx, hxs⟩
    simp only [sort_by, ih hxs]
    apply stableInsert_front
    intro y hy
    exact hx y (List.mem_of_mem_head? hy)

/-! ### Helper lemmas on threshold selection -/

/-- The last qualifying pair of the scanned list (the fold keeps overwriting
with every qualifying threshold). -/
def lastQual (version : String) : List (String × String) → Option (String × String)
  | [] => none
  | p :: t =>
    match lastQual version t with
    | some q => some q
    | none => if thresholdQual version p.1 then some p else none

theorem foldl_threshold (version : String) :
    ∀ (l : List (String × String)) (acc : Option String),
      l.foldl (fun acc p => if thresholdQual version p.1 then some p.2 else acc) acc =
        (match lastQual version l with
         | some q => some q.2
         | none => acc) := by
  intro l
  induction l with
  | nil => intro acc; rfl
  | cons p t ih =>
    intro acc
    simp only [List.foldl_cons, ih, lastQual]
    cases hlq : lastQual version t with
    | some q => simp
    | none =>
      by_cases hq : thresholdQual version p.1 = true <;> simp [hq]

theorem lastQual_of_none (version : String) :
    ∀ {l : List (String × String)},
      (∀ p ∈ l, thresholdQual version p.1 = false) → lastQual version l = none := by
  intro l
  induction l with
  | nil => intro _; rfl
  | cons p t ih =>
    intro h
    have hp := h p (by simp)
    have ht := ih (fun q hq => h q (by simp [hq]))
    simp [lastQual, ht, hp]

theorem lastQual_max (version t e : String) :
    ∀ {l : List (String × String)},
      l.Pairwise (fun a b => version_compare a.1 b.1 = some .lt) →
      (t, e) ∈ l → thresholdQual version t = true →
      (∀ p ∈ l, thresholdQual version p.1 = true → version_compare p.1 t ≠ some .gt) →
      lastQual version l = some (t, e) := by
  intro l
  induction l with
  | nil => intro _ hmem; cases hmem
  | cons a rest ih =>
    intro hpw hmem hq hmax
    rcases List.pairwise_cons.mp hpw with ⟨ha, hrest⟩
    rcases List.mem_cons.mp hmem with heq | hmem'
    · subst heq
      have hnone : lastQual version rest = none := by
        apply lastQual_of_none
        intro p hp
        by_contra hcon
        have hqp : thresholdQual version p.1 = true := by
          simpa using hcon
        have hlt := ha p hp
        have hgt : version_compare p.1 t = some .gt := version_compare_lt_gt hlt
        exact hmax p (by simp [hp]) hqp hgt
      simp [lastQual, hnone, hq]
    · have := ih hrest hmem' hq
        (fun p hp hqp => hmax p (by simp [hp]) hqp)
      simp [lastQual, this]

/-! ### Helper lemmas: the engine/engine-version coupling -/

/-- The coupling stated by the spec: a present engine version entails a
present engine. -/
def evImpliesEngine (c : Client) : Prop :=
  c.engine_version.isSome → c.engine.isSome

theorem evInv_of_fields {c d : Client} (he : d.engine = c.engine)
    (hev : d.engine_version = c.engine_version) (hc : evImpliesEngine c) :
    evImpliesEngine d := by
  intro h
  rw [hev] at h
  rw [he]
  exact hc h


theorem stepIridium_evInv {c : Client} (hc : evImpliesEngine c) :
    evImpliesEngine (stepIridium c) := by
  rcases hv : c.version with _ | v <;> simp only [stepIridium, hv]
  · exact hc
  · split
    · exact evInv_of_fields rfl rfl hc
    · exact hc

theorem step360_evInv {uaC : Option Client} {c : Client}
    (hu : ∀ u, uaC = some u → u.engine.isSome) (hc : evImpliesEngine c) :
    evImpliesEngine (step360 uaC c) := by
  rcases huaC : uaC with _ | u
  · rcases hv : c.version with _ | v <;> simp only [step360, huaC, hv] <;> exact hc
  · have hue : u.engine.isSome := hu u huaC
    rcases hv : c.version with _ | v
    · simp only [step360, huaC, hv]
      exact hc
    · rcases huv : u.version with _ | uv <;> simp only [step360, huaC, hv, huv]
      · exact hc
      · split
        · intro _
          exact hue
        · exact hc

theorem stepEarlyVersion_evInv {uaC : Option Client} {c : Client}
    (hc : evImpliesEngine c) : evImpliesEngine (stepEarlyVersion uaC c) := by
  unfold stepEarlyVersion
  split
  · exact evInv_of_fields rfl rfl hc
  · exact hc

theorem stepDuckDuckGo_evInv {c : Client} (hc : evImpliesEngine c) :
    evImpliesEngine (stepDuckDuckGo c) := by
  unfold stepDuckDuckGo
  split
  · exact evInv_of_fields rfl rfl hc
  · exact hc

theorem stepVewd_evInv {uaC : Option Client} {c : Client}
    (hu : ∀ u, uaC = some u → u.engine.isSome) (hc : evImpliesEngine c) :
    evImpliesEngine (stepVewd uaC c) := by
  rcases huaC : uaC with _ | u <;> simp only [stepVewd, huaC]
  · split
    · intro h
      simp [Option.bind] at h
    · exact hc
  · have hue : u.engine.isSome := hu u huaC
    split
    · intro _
      simpa [Option.bind] using hue
    · exact hc

theorem stepChromium_evInv {uaC : Option Client} {c : Client}
    (hc : evImpliesEngine c) : evImpliesEngine (stepChromium uaC c) := by
  unfold stepChromium
  split
  · rcases huaC : uaC with _ | u <;> simp only [huaC]
    · exact hc
    · split
      · exact evInv_of_fields rfl rfl hc
      · exact hc
  · exact hc

theorem stepMobileSuffix_evInv {uaC : Option Client} {c : Client}
    (hc : evImpliesEngine c) : evImpliesEngine (stepMobileSuffix uaC c) := by
  rcases huaC : uaC with _ | u <;> simp only [stepMobileSuffix, huaC]
  · exact hc
  · split
    · exact evInv_of_fields rfl rfl hc
    · exact hc

theorem stepFamilyMerge_evInv {uaC : Option Client} {c : Client}
    (hu : ∀ u, uaC = some u → u.engine.isSome) (hc : evImpliesEngine c) :
    evImpliesEngine (stepFamilyMerge uaC c) := by
  rcases huaC : uaC with _ | u <;> simp only [stepFamilyMerge, huaC]
  · exact hc
  · have hue : u.engine.isSome := hu u huaC
    split
    · intro _
      exact hue
    · exact hc

theorem stepSameName_evInv {uaC : Option Client} {c : Client}
    (hu : ∀ u, uaC = some u → u.engine.isSome) (hc : evImpliesEngine c) :
    evImpliesEngine (stepSameName uaC c) := by
  rcases huaC : uaC with _ | u <;> simp only [stepSameName, huaC]
  · exact hc
  · have hue : u.engine.isSome := hu u huaC
    split
    · intro _
      exact hue
    · exact hc

theorem stepDetailedVersion_evInv {uaC : Option Client} {c : Client}
    (hc : evImpliesEngine c) : evImpliesEngine (stepDetailedVersion uaC c) := by
  rcases huaC : uaC with _ | u
  · simp only [stepDetailedVersion, huaC]
    exact hc
  · rcases huv : u.version with _ | uv <;> rcases hv : c.version with _ | cv <;>
      simp only [stepDetailedVersion, huaC, huv, hv] <;> try exact hc
    split
    · exact evInv_of_fields rfl rfl hc
    · exact hc

theorem stepFinalUaVersion_evInv {uaC : Option Client} {c : Client}
    (hc : evImpliesEngine c) : evImpliesEngine (stepFinalUaVersion uaC c) := by
  rcases huaC : uaC with _ | u <;> simp only [stepFinalUaVersion, huaC]
  · exact hc
  · split
    · split
      · exact evInv_of_fields rfl rfl hc
      · exact hc
    · exact hc

theorem reconcile_evInv {uaC : Option Client} {c : Client}
    (hu : ∀ u, uaC = some u → u.engine.isSome) (hc : evImpliesEngine c) :
    evImpliesEngine (reconcile uaC c) := by
  unfold reconcile
  exact stepFinalUaVersion_evInv (stepDetailedVersion_evInv (stepSameName_evInv hu
    (stepFamilyMerge_evInv hu (stepMobileSuffix_evInv (stepChromium_evInv
      (stepVewd_evInv hu (stepDuckDuckGo_evInv (stepEarlyVersion_evInv
        (step360_evInv hu (stepIridium_evInv hc))))))))))

theorem mkHintsClient_evInv {env : Env} {ua : String} {chO : Option ClientHint}
    {c : Client} (hm : mkHintsClient env ua chO = some c) : evImpliesEngine c := by
  cases chO with
  | none => simp [mkHintsClient] at hm
  | some ch =>
    unfold mkHintsClient at hm
    cases hs : orderSurvivors (hintSurvivors env ch) with
    | nil => simp [hs] at hm
    | cons t rest =>
      obtain ⟨b, bv, entry⟩ := t
      simp only [hs] at hm
      injection hm with hm
      subst hm
      intro hev
      by_cases hbl : entry.name ∈ BLINK_FAMILY_BROWSERS
      · simp [hbl]
      · simp [hbl] at hev

theorem postOperaMobile_evInv {env : Env} {ua : String} {c : Client}
    (hc : evImpliesEngine c) : evImpliesEngine (postOperaMobile env ua c) := by
  unfold postOperaMobile
  split
  · cases hcap : operaMobileCapture ua.data
    · exact hc
    · cases hch : chromeVersionCapture ua.data <;>
        cases hb : env.search_by_name "Opera Mobile" <;> intro _ <;> simp
  · exact hc

theorem postAppHint_evInv {env : Env} {ua : String} {chO : Option ClientHint}
    {c c' : Client} (h : postAppHint env ua chO c = .ok c') (hc : evImpliesEngine c) :
    evImpliesEngine c' := by
  unfold postAppHint at h
  cases chO with
  | none => injection h with h; subst h; exact hc
  | some ch =>
    cases ha : ch.app with
    | none => simp [ha] at h; subst h; exact hc
    | some app_hint =>
      simp only [ha] at h
      cases hn : env.appHints app_hint with
      | none => simp [hn] at h; subst h; exact hc
      | some app_name =>
        simp only [hn] at h
        split at h
        · cases hx : extract_version_from_ua ua app_hint with
          | error e => simp [hx, Bind.bind, Except.bind] at h
          | ok ver =>
            simp only [hx, Bind.bind, Except.bind] at h
            cases hb : env.search_by_name app_name with
            | none =>
              simp only [hb] at h
              injection h with h
              subst h
              exact evInv_of_fields rfl rfl hc
            | some browser =>
              simp only [hb] at h
              split at h
              · injection h with h
                subst h
                intro _
                simp
              · injection h with h
                subst h
                exact evInv_of_fields rfl rfl hc
        · injection h with h; subst h; exact hc

theorem postFinal_evInv {c : Client} (hc : evImpliesEngine c) :
    evImpliesEngine (postFinal c) := by
  rcases he : c.engine with _ | engine <;> simp only [postFinal, he]
  · exact hc
  · intro _
    split <;> split <;> simp [he]

theorem lookupPreFinal_evInv {env : Env} {ua : String} {hints : Option ClientHint}
    {c0 : Client}
    (hua : ∀ u, browser_list_lookup env ua = some u → u.engine.isSome)
    (h : lookupPreFinal env ua hints = .ok (some c0)) : evImpliesEngine c0 := by
  unfold lookupPreFinal at h
  cases hm : mkHintsClient env ua hints with
  | none =>
    cases hub : browser_list_lookup env ua with
    | none => simp [hm, hub, Option.or, pure, Except.pure] at h
    | some u =>
      simp only [hm, hub, Option.map, Option.or] at h
      cases happ : postAppHint env ua hints (postOperaMobile env ua u) with
      | error e => simp [happ, Except.map] at h
      | ok c2 =>
        simp only [happ, Except.map] at h
        injection h with h
        injection h with h
        rw [← h]
        refine postAppHint_evInv happ (postOperaMobile_evInv ?_)
        intro _
        exact hua u hub
  | some hcl =>
    simp only [hm, Option.map, Option.or] at h
    cases happ : postAppHint env ua hints
        (postOperaMobile env ua (reconcile (browser_list_lookup env ua) hcl)) with
    | error e => simp [happ, Except.map] at h
    | ok c2 =>
      simp only [happ, Except.map] at h
      injection h with h
      injection h with h
      rw [← h]
      exact postAppHint_evInv happ
        (postOperaMobile_evInv (reconcile_evInv hua (mkHintsClient_evInv hm)))

/-- C2 (amended): if `lookup` succeeds with a client whose engine version is
present then its engine is present, provided every UA-derived candidate for
this UA carries an engine; without that proviso the same-name/same-family
reconciliation steps can copy an absent UA engine over a hints candidate
that keeps its engine version (see the counterexample). -/
theorem c2_engine_version_implies_engine (env : Env) (ua : String)
    (hints : Option ClientHint)
    (hua : ∀ u, browser_list_lookup env ua = some u → u.engine.isSome) :
    ∀ c, lookup env ua hints = .ok (some c) →
      c.engine_version.isSome → c.engine.isSome := by
  intro c hc
  unfold lookup at hc
  cases hpre : lookupPreFinal env ua hints with
  | error e => simp [hpre, Except.map] at hc
  | ok res =>
    simp only [hpre, Except.map] at hc
    injection hc with hc
    cases res with
    | none => simp [Option.map] at hc
    | some c0 =>
      simp only [Option.map] at hc
      injection hc with hc
      rw [← hc]
      exact postFinal_evInv (lookupPreFinal_evInv hua hpre)

/-- Catalog entry of the C2 counterexample environment. -/
def chromeEntryC2 : BrowserEntry := { name := "Chrome", family := none }

/-- C2 counterexample environment: one engine-less catch-all rule named
Chrome, no engine rules, a catalog holding only Chrome. -/
def envC2 : Env :=
  { clientList := [{ name := "Chrome", captures := fun _ => some [],
                     version := "", engine := none }],
    engineRules := [],
    search_by_name := fun s => if s = "Chrome" then some chromeEntryC2 else none,
    appHints := fun _ => none }

/-- C2 counterexample hints: the single brand Chrome at version 100. -/
def hintsC2 : ClientHint :=
  { full_version_list := [("Chrome", "100")], ua_full_version := none, app := none }

/-- C2 counterexample: on a UA matching the engine-less Chrome rule with
matching hints, the same-name merge copies the absent UA engine while the
hints engine version survives, so the returned client has
`engine_version = some "100"` but `engine = none`. -/
theorem c2_engine_version_cex :
    lookup envC2 "hello" (some hintsC2) =
      .ok (some { name := "Chrome", version := some "100", type := .Browser,
                  engine := none, engine_version := some "100",
                  browser := some chromeEntryC2 }) := rfl

/-- C2 witness environment: no UA rules at all. -/
def envC2w : Env :=
  { clientList := [], engineRules := [],
    search_by_name := fun s => if s = "Chrome" then some { name := "Chrome", family := none } else none,
    appHints := fun _ => none }

/-- C2 witness hints. -/
def hintsC2w : ClientHint :=
  { full_version_list := [("Chrome", "100")], ua_full_version := none, app := none }

/-- C2 witness: the amended theorem applied at a concrete, hypothesis-
satisfying input. -/
theorem c2_engine_version_implies_engine_witness :
    ({ name := "Chrome", version := some "100", type := .Browser,
       engine := some "Blink", engine_version := some "100",
       browser := some { name := "Chrome", family := none } } : Client).engine.isSome :=
  c2_engine_version_implies_engine envC2w "x" (some hintsC2w)
    (fun u h => by
      rw [show browser_list_lookup envC2w "x" = none from rfl] at h
      cases h)
    _ rfl rfl

/-- C9: `lookup` is deterministic — against a fixed table environment, two
calls on the identical UA and hints agree, and in particular two successful
results coincide in every field. -/
theorem c9_lookup_deterministic (env : Env) (ua : String) (hints : Option ClientHint) :
    lookup env ua hints = lookup env ua hints ∧
    ∀ c1 c2, lookup env ua hints = .ok (some c1) → lookup env ua hints = .ok (some c2) →
      c1.name = c2.name ∧ c1.version = c2.version ∧ c1.type = c2.type ∧
      c1.engine = c2.engine ∧ c1.engine_version = c2.engine_version ∧
      c1.browser = c2.browser := by
  refine ⟨rfl, ?_⟩
  intro c1 c2 h1 h2
  rw [h1] at h2
  injection h2 with h2
  injection h2 with h2
  rw [h2]
  exact ⟨rfl, rfl, rfl, rfl, rfl, rfl⟩

/-- C9 witness environment: one catch-all rule. -/
def envC9 : Env :=
  { clientList := [{ name := "Safari", captures := fun _ => some [],
                     version := "", engine := none }],
    engineRules := [], search_by_name := fun _ => none, appHints := fun _ => none }

/-- C9 witness: determinism applied at a concrete input whose lookup
succeeds. -/
theorem c9_lookup_deterministic_witness :
    ({ name := "Safari", version := none, type := .Browser, engine := none,
       engine_version := none, browser := none } : Client).name = "Safari" :=
  ((c9_lookup_deterministic envC9 "ua" none).2 _ _ rfl rfl).1

/-! ### C8: the Every Browser fixup -/

/-- C8 (amended): a surviving candidate named Every Browser at the final
fixup is returned with engine Blink and no engine version, provided it
carries some engine; the fixup sits inside the engine-present branch, so an
engine-less candidate is returned unchanged (see the counterexample). -/
theorem c8_every_browser (env : Env) (ua : String) (hints : Option ClientHint)
    (c : Client) (hpre : lookupPreFinal env ua hints = .ok (some c))
    (hname : c.name = "Every Browser") (he : c.engine.isSome) :
    ∃ c', lookup env ua hints = .ok (some c') ∧ c'.engine = some "Blink" ∧
      c'.engine_version = none ∧ c'.name = c.name ∧ c'.version = c.version := by
  have hpf : postFinal c = { c with engine := some "Blink", engine_version := none } := by
    obtain ⟨e, hee⟩ := Option.isSome_iff_exists.mp he
    simp [postFinal, hee, hname]
  refine ⟨postFinal c, ?_, ?_, ?_, ?_, ?_⟩
  · unfold lookup
    rw [hpre]
    rfl
  · rw [hpf]
  · rw [hpf]
  · rw [hpf]
  · rw [hpf]

/-- C8 counterexample environment: a catch-all rule named Every Browser with
no engine information anywhere. -/
def envC8 : Env :=
  { clientList := [{ name := "Every Browser", captures := fun _ => some [],
                     version := "", engine := none }],
    engineRules := [], search_by_name := fun _ => none, appHints := fun _ => none }

/-- The client the C8 counterexample returns. -/
def cC8ex : Client :=
  { name := "Every Browser", version := none, type := .Browser,
    engine := none, engine_version := none, browser := none }

/-- C8 counterexample: a returned Every Browser candidate that carried no
engine keeps `engine = none` — the fixup never fires, contradicting the
claim that the result always has engine Blink. -/
theorem c8_every_browser_cex :
    lookup envC8 "x" none = .ok (some cC8ex) ∧
    ¬ ∃ c', lookup envC8 "x" none = .ok (some c') ∧ c'.engine = some "Blink" := by
  refine ⟨rfl, ?_⟩
  rintro ⟨c', hc', hce⟩
  have h0 : (Except.ok (some cC8ex) : Except Unit (Option Client)) = .ok (some c') := by
    rw [show lookup envC8 "x" none =
        (.ok (some cC8ex) : Except Unit (Option Client)) from rfl] at hc'
    exact hc'
  injection h0 with h0
  injection h0 with h0
  rw [← h0] at hce
  simp [cC8ex] at hce

/-- C8 witness environment: the Every Browser rule carries a default Blink
engine, so the candidate reaches the fixup with an engine present. -/
def envC8w : Env :=
  { clientList := [{ name := "Every Browser", captures := fun _ => some [],
                     version := "",
                     engine := some { default := some "Blink", versions := [] } }],
    engineRules := [], search_by_name := fun _ => none, appHints := fun _ => none }

/-- The pre-fixup client of the C8 witness. -/
def cC8w : Client :=
  { name := "Every Browser", version := none, type := .Browser,
    engine := some "Blink", engine_version := none, browser := none }

/-- C8 witness: the amended theorem applied at a concrete engine-carrying
Every Browser candidate. -/
theorem c8_every_browser_witness :
    ∃ c', lookup envC8w "x" none = .ok (some c') ∧ c'.engine = some "Blink" ∧
      c'.engine_version = none ∧ c'.name = "Every Browser" ∧ c'.version = none :=
  c8_every_browser envC8w "x" none cC8w rfl rfl rfl

/-! ### C10: per-call pattern compilation failure -/

/-- C10 environment: well-formed rule/engine tables, and an app-hint table
mapping the identifier `(` to a browser name. -/
def envC10 : Env :=
  { clientList := [{ name := "Bar", captures := fun _ => some [],
                     version := "", engine := none }],
    engineRules := [], search_by_name := fun _ => none,
    appHints := fun s => if s = "(" then some "Foo Browser" else none }

/-- C10 hints: the app identifier is `(`. -/
def hintsC10 : ClientHint :=
  { full_version_list := [], ua_full_version := none, app := some "(" }

/-- C10: with every load-time table fine (the same lookup without the app
hint returns a client), an app identifier containing an unescaped `(` makes
the per-call compilation of the version-extraction pattern fail, and the
error propagates out of `lookup`. -/
theorem c10_app_hint_regex_error :
    lookup envC10 "x" (some hintsC10) = .error () ∧
    lookup envC10 "x" none =
      .ok (some { name := "Bar", version := none, type := .Browser, engine := none,
                  engine_version := none, browser := none }) :=
  ⟨rfl, rfl⟩

/-! ### C1: Gecko/Clecko engine-version resolution -/

/-- C1 counterexample: for engine Gecko on a UA where the rv pattern fails,
`BrowserClientList::engine_version` does not return none — it falls through
to the generic token pattern and captures the build date. -/
theorem c1_gecko_engine_version_cex :
    browser_engine_version "Gecko/20100101" "Gecko" = some "20100101" ∧
    rvVersionCapture true "Gecko/20100101".data = none :=
  ⟨rfl, rfl⟩

/-- C1 (amended): for Gecko/Clecko, `detect_engine_version` (engines.rs)
returns exactly the rv-pattern capture — none when it fails — whereas
`BrowserClientList::engine_version` (browsers.rs) returns the rv capture on
success but falls back to the generic `<token>[/_ ]?<version>` substitution
pattern when the rv pattern does not match. -/
theorem c1_gecko_engine_version (ua e : String) (h : e = "Gecko" ∨ e = "Clecko") :
    (detect_engine_version ua e = rvVersionCapture false ua.data) ∧
    (∀ v, rvVersionCapture true ua.data = some v → browser_engine_version ua e = some v) ∧
    (rvVersionCapture true ua.data = none →
      browser_engine_version ua e = specTokenVersionCapture [e.data] ua.data) := by
  have he : ¬ e = "" := by rcases h with h | h <;> subst h <;> decide
  refine ⟨?_, ?_, ?_⟩
  · unfold detect_engine_version
    rw [if_neg he, if_pos h]
  · intro v hv
    simp only [browser_engine_version, if_neg he, if_pos h, hv]
  · intro hv
    simp only [browser_engine_version, if_neg he, if_pos h, hv]
    rcases h with h | h <;> subst h <;> rfl

/-- C1 witness: the amended theorem applied to a UA the rv pattern accepts
(note the lowercase `gecko`: the engines.rs pattern is case-sensitive). -/
theorem c1_gecko_engine_version_witness :
    detect_engine_version " rv:1.2 gecko/20100101" "Gecko" =
      rvVersionCapture false (" rv:1.2 gecko/20100101").data :=
  (c1_gecko_engine_version " rv:1.2 gecko/20100101" "Gecko" (Or.inl rfl)).1

/-! ### C6: the late UA-version override -/

theorem stepFinalUaVersion_name (uaC : Option Client) (c : Client) :
    (stepFinalUaVersion uaC c).name = c.name := by
  rcases uaC with _ | u <;> simp only [stepFinalUaVersion]
  · split
    · split <;> rfl
    · rfl

/-- C6: whenever the reconciled candidate's final name is in the
late-override set and the UA candidate has a non-empty version, the pipeline
result carries exactly the UA version (step 11 runs last, after the prefix-
extension step 10). -/
theorem c6_late_ua_version_override (c u : Client) (v : String)
    (hv : u.version = some v) (hne : v ≠ "")
    (hname : BROWSERS_USING_UA_VERSION_FINAL.contains (reconcile (some u) c).name = true) :
    (reconcile (some u) c).version = some v := by
  unfold reconcile at hname ⊢
  rw [stepFinalUaVersion_name] at hname
  simp only [stepFinalUaVersion, hv, Option.getD_some]
  rw [if_pos hne, if_pos hname]

/-- The hints candidate of the C6 witness (name already in the late set). -/
def cC6 : Client :=
  { name := "Opera", version := some "9", type := .Browser,
    engine := none, engine_version := none, browser := none }

/-- The UA candidate of the C6 witness. -/
def uC6 : Client :=
  { name := "UA Browser", version := some "74.0", type := .Browser,
    engine := none, engine_version := none, browser := none }

/-- C6 witness: the override applied at a concrete pair where the hints
version differs from the UA version `74.0`. -/
theorem c6_late_ua_version_override_witness :
    (reconcile (some uC6) cC6).version = some "74.0" :=
  c6_late_ua_version_override cC6 uC6 "74.0" rfl (by decide) rfl

/-! ### C7: the app-hint override -/

/-- C7 counterexample environment: the app-hint table maps the identifier
`com.example.app` to the name Foo Browser. -/
def envC7 : Env :=
  { clientList := [{ name := "Bar", captures := fun _ => some [],
                     version := "", engine := none }],
    engineRules := [], search_by_name := fun _ => none,
    appHints := fun s => if s = "com.example.app" then some "Foo Browser" else none }

/-- C7 counterexample hints. -/
def hintsC7 : ClientHint :=
  { full_version_list := [], ua_full_version := none, app := some "com.example.app" }

/-- C7 counterexample: the UA contains `Foo Browser/3.2`, so a search for
the mapped app name would capture `3.2`; the code instead searches for the
raw app identifier `com.example.app` and the result has no version,
contradicting the claim that the mapped name is searched. -/
theorem c7_app_hint_version_cex :
    lookup envC7 "Foo Browser/3.2" (some hintsC7) =
      .ok (some { name := "Foo Browser", version := none, type := .Browser,
                  engine := none, engine_version := none, browser := none }) ∧
    appVersionSearch "Foo Browser".data "Foo Browser/3.2".data = some "3.2" :=
  ⟨rfl, rfl⟩

/-- C7 (amended): when the app identifier maps to a name different from the
current candidate's, the post-processor renames the candidate to the mapped
name and sets its version to the result of searching the raw UA for the
dot-escaped app identifier (not the mapped name) followed by `/` and a
digits/dots run — absent when that search fails. -/
theorem c7_app_hint_override (env : Env) (ua : String) (ch : ClientHint) (c : Client)
    (a n : String) (ver : Option String)
    (ha : ch.app = some a) (hn : env.appHints a = some n) (hne : c.name ≠ n)
    (hx : extract_version_from_ua ua a = .ok ver) :
    ∃ c', postAppHint env ua (some ch) c = .ok c' ∧ c'.name = n ∧ c'.version = ver := by
  unfold postAppHint
  simp only [ha, hn]
  rw [if_pos hne]
  simp only [hx, Bind.bind, Except.bind]
  cases hb : env.search_by_name n with
  | none => exact ⟨_, rfl, rfl, rfl⟩
  | some browser =>
    dsimp only
    by_cases hblk : blinkSignatureMatch ua.data = true ∨ ALWAYS_BLINK_APPS.contains n = true
    · rw [if_pos hblk]
      exact ⟨_, rfl, rfl, rfl⟩
    · rw [if_neg hblk]
      exact ⟨_, rfl, rfl, rfl⟩

/-- The pre-override candidate of the C7 witness. -/
def cC7w : Client :=
  { name := "Bar", version := none, type := .Browser,
    engine := none, engine_version := none, browser := none }

/-- C7 witness: the amended theorem applied at a concrete input (the
identifier search fails on this UA, so the version comes back absent). -/
theorem c7_app_hint_override_witness :
    ∃ c', postAppHint envC7 "Foo Browser/3.2" (some hintsC7) cC7w = .ok c' ∧
      c'.name = "Foo Browser" ∧ c'.version = none :=
  c7_app_hint_override envC7 "Foo Browser/3.2" hintsC7 cC7w
    "com.example.app" "Foo Browser" none rfl rfl (by decide) rfl

/-! ### C3: hints-candidate ordering and naming -/

/-- C3 example environment: a catalog holding Chromium and MyBrowser. -/
def envC3 : Env :=
  { clientList := [], engineRules := [],
    search_by_name := fun s =>
      if s = "Chromium" ∨ s = "MyBrowser" then some { name := s, family := none }
      else none,
    appHints := fun _ => none }

/-- C3 example hints: Chromium listed first. -/
def hintsC3 : ClientHint :=
  { full_version_list := [("Chromium", "90"), ("MyBrowser", "5")],
    ua_full_version := none, app := none }

/-- C3: the hints resolver orders the surviving (brand, version, catalog)
triples stably with the Chromium / Microsoft Edge brands moved to the end,
names the result after the first ordered survivor, returns none exactly when
no pair has a catalog hit, and on the spec's example brand list picks
MyBrowser over Chromium. -/
theorem c3_hints_ordering :
    (∀ l : List (String × String × BrowserEntry), orderSurvivors l =
        l.filter (fun t => !(isCompatBrand t.1)) ++ l.filter (fun t => isCompatBrand t.1)) ∧
    (∀ env ua ch, (mkHintsClient env ua (some ch)).map (fun c => c.name) =
        ((orderSurvivors (hintSurvivors env ch)).head?).map (fun t => t.2.2.name)) ∧
    (∀ env ua ch, hintSurvivors env ch = [] → mkHintsClient env ua (some ch) = none) ∧
    ((mkHintsClient envC3 "" (some hintsC3)).map (fun c => c.name) = some "MyBrowser") := by
  refine ⟨?_, ?_, ?_, rfl⟩
  · intro l
    simpa [orderSurvivors] using sort_by_bool_key (fun t => isCompatBrand t.1) l
  · intro env ua ch
    simp only [mkHintsClient]
    cases hs : orderSurvivors (hintSurvivors env ch) with
    | nil => simp
    | cons t ts =>
      obtain ⟨b, bv, e⟩ := t
      simp
  · intro env ua ch h
    simp only [mkHintsClient]
    rw [h]
    rfl

/-- C3 witness environment: an empty catalog, so no pair survives. -/
def envC3w : Env :=
  { clientList := [], engineRules := [],
    search_by_name := fun _ => none, appHints := fun _ => none }

/-- C3 witness hints. -/
def hintsC3w : ClientHint :=
  { full_version_list := [("X", "1")], ua_full_version := none, app := none }

/-- C3 witness: the no-survivor clause applied at a concrete input. -/
theorem c3_hints_ordering_witness :
    mkHintsClient envC3w "" (some hintsC3w) = none :=
  c3_hints_ordering.2.2.1 envC3w "" hintsC3w rfl

/-! ### C4: Blink-family engine arbitration of the hints candidate -/

/-- The spec's wording of the Blink engine-version arbitration, for
comparison with the code path: the UA-derived Blink version versus the
chosen hints version, picking the semantically greater one and defaulting to
whichever side is present. -/
def specBlinkEngineVersion (ua chv : String) : Option String :=
  match detect_engine_version ua "Blink" with
  | some uav => if version_compare chv uav = some .gt then some chv else some uav
  | none => some chv

/-- The spec's wording of the chosen hints version: the full UA version when
present, else the chosen pair's brand version. -/
def hintsChosenVersion (ch : ClientHint) (brandVersion : String) : String :=
  match ch.ua_full_version with
  | some v => v
  | none => brandVersion

/-- C4: when the chosen catalog name is in the fixed Blink-family set the
hints candidate gets engine Blink and the arbitrated engine version (the
Iridium exception clause is stated as in the spec; it never fires because
Iridium is not in the set), and for any other chosen name engine and engine
version stay unset. -/
theorem c4_blink_family_engine (env : Env) (ua : String) (ch : ClientHint)
    (b bv : String) (entry : BrowserEntry)
    (rest : List (String × String × BrowserEntry))
    (h : orderSurvivors (hintSurvivors env ch) = (b, bv, entry) :: rest) :
    ∃ c, mkHintsClient env ua (some ch) = some c ∧
      (entry.name ∈ BLINK_FAMILY_BROWSERS →
        c.engine = some "Blink" ∧
        (entry.name ≠ "Iridium" →
          c.engine_version = specBlinkEngineVersion ua (hintsChosenVersion ch bv)) ∧
        (entry.name = "Iridium" →
          c.engine_version = detect_engine_version ua "Blink")) ∧
      (entry.name ∉ BLINK_FAMILY_BROWSERS →
        c.engine = none ∧ c.engine_version = none) := by
  simp only [mkHintsClient]
  rw [h]
  dsimp only
  refine ⟨_, rfl, ?_, ?_⟩
  · intro hbl
    have hcon : BLINK_FAMILY_BROWSERS.contains entry.name = true := by simpa using hbl
    refine ⟨?_, ?_, ?_⟩
    · rw [if_pos hcon]
    · intro hir
      rw [if_pos hcon]
      dsimp only
      rw [if_pos hir]
      rcases hful : ch.ua_full_version with _ | fv <;>
        rcases hdet : detect_engine_version ua "Blink" with _ | uav <;>
          simp [specBlinkEngineVersion, hintsChosenVersion, hful, hdet, Option.or]
    · intro hir
      rw [if_pos hcon]
      dsimp only
      rw [if_neg (fun hh => hh hir)]
  · intro hbl
    have hcon : ¬ BLINK_FAMILY_BROWSERS.contains entry.name = true := by simpa using hbl
    rw [if_neg hcon]
    exact ⟨rfl, rfl⟩

/-- Catalog entry of the C4 witness. -/
def entryC4 : BrowserEntry := { name := "Chrome", family := some "Chrome" }

/-- C4 witness environment. -/
def envC4 : Env :=
  { clientList := [], engineRules := [],
    search_by_name := fun s => if s = "Chrome" then some entryC4 else none,
    appHints := fun _ => none }

/-- C4 witness hints. -/
def hintsC4 : ClientHint :=
  { full_version_list := [("Chrome", "100")], ua_full_version := none, app := none }

/-- C4 witness: the theorem applied at the concrete Chrome brand. -/
theorem c4_blink_family_engine_witness :
    ∃ c, mkHintsClient envC4 "" (some hintsC4) = some c ∧
      (entryC4.name ∈ BLINK_FAMILY_BROWSERS →
        c.engine = some "Blink" ∧
        (entryC4.name ≠ "Iridium" →
          c.engine_version = specBlinkEngineVersion "" (hintsChosenVersion hintsC4 "100")) ∧
        (entryC4.name = "Iridium" →
          c.engine_version = detect_engine_version "" "Blink")) ∧
      (entryC4.name ∉ BLINK_FAMILY_BROWSERS →
        c.engine = none ∧ c.engine_version = none) :=
  c4_blink_family_engine envC4 "" hintsC4 "Chrome" "100" entryC4 [] rfl

/-! ### C5: threshold-based engine selection -/

theorem stableInsert_mem {le : α → α → Bool} {x a : α} :
    ∀ {l : List α}, x ∈ stableInsert le a l → x = a ∨ x ∈ l := by
  intro l
  induction l with
  | nil =>
    intro h
    simp [stableInsert] at h
    exact Or.inl h
  | cons y ys ih =>
    intro h
    simp only [stableInsert] at h
    split at h
    · rcases List.mem_cons.mp h with h | h
      · exact Or.inl h
      · exact Or.inr h
    · rcases List.mem_cons.mp h with h | h
      · exact Or.inr (by simp [h])
      · rcases ih h with h | h
        · exact Or.inl h
        · exact Or.inr (by simp [h])

theorem sort_by_mem {le : α → α → Bool} :
    ∀ {l : List α} {x : α}, x ∈ sort_by le l → x ∈ l := by
  intro l
  induction l with
  | nil =>
    intro x h
    simp [sort_by] at h
  | cons a t ih =>
    intro x h
    simp only [sort_by] at h
    rcases stableInsert_mem h with h | h
    · simp [h]
    · exact List.mem_cons_of_mem a (ih h)

theorem lastQual_mem_qual (version : String) :
    ∀ {l : List (String × String)} {p : String × String},
      lastQual version l = some p → p ∈ l ∧ thresholdQual version p.1 = true := by
  intro l
  induction l with
  | nil =>
    intro p h
    simp [lastQual] at h
  | cons q t ih =>
    intro p h
    simp only [lastQual] at h
    cases hlt : lastQual version t with
    | some r =>
      rw [hlt] at h
      injection h with h
      subst h
      rcases ih hlt with ⟨hmem, hq⟩
      exact ⟨List.mem_cons_of_mem q hmem, hq⟩
    | none =>
      rw [hlt] at h
      by_cases hq : thresholdQual version q.1 = true
      · rw [if_pos hq] at h
        injection h with h
        subst h
        exact ⟨List.mem_cons_self q t, hq⟩
      · rw [if_neg hq] at h
        cases h

/-- `BrowserClientList::engine` characterized through the last qualifying
pair of the sorted threshold list: the fold keeps the engine of the last
qualifying entry of the treated-as-equal stable sort, then the default and
the empty/absent fallback apply. -/
theorem browser_engine_eq_lastQual (env : Env) (ua : String)
    (spec : BrowserEngineSpec) (version : String) :
    browser_engine env ua spec version =
      (match lastQual version (sort_by thresholdLe spec.versions) with
       | some q => if q.2 = "" then engines_lookup env ua else some q.2
       | none =>
         if spec.default = none ∨ spec.default = some "" then engines_lookup env ua
         else spec.default) := by
  unfold browser_engine
  dsimp only
  rw [foldl_threshold version (sort_by thresholdLe spec.versions) none]
  cases hl : lastQual version (sort_by thresholdLe spec.versions) with
  | none => rfl
  | some q =>
    dsimp only
    by_cases he : q.2 = ""
    · rw [if_pos (Or.inr (by rw [he])), if_pos he]
    · have hne : ¬(some q.2 = none ∨ some q.2 = some "") := by
        rintro (h | h)
        · cases h
        · exact he (Option.some.inj h)
      rw [if_neg hne, if_neg he]

/-- The EngineSpec of the spec's concrete example, with a default for the
below-all-thresholds case. -/
def specC5 : BrowserEngineSpec :=
  { default := some "EngineD", versions := [("10", "EngineA"), ("20", "EngineB")] }

/-- A threshold table with a malformed threshold alongside a numeric one. -/
def specC5m : BrowserEngineSpec :=
  { default := some "EngineD", versions := [("10", "EngineA"), ("abc", "EngineX")] }

/-- The same malformed-threshold table in the opposite iteration order. -/
def specC5m2 : BrowserEngineSpec :=
  { default := some "EngineD", versions := [("abc", "EngineX"), ("10", "EngineA")] }

/-- C5 counterexample table: a malformed threshold sitting between two
comparable ones.  Its list order is already ascending under the code's
treated-as-equal comparator (adjacent pairs compare `Eq`), so every stable
sort — the embedded insertion sort and Rust's merge sort alike — leaves it
unchanged, and the order stands for a realizable `HashMap` iteration
order. -/
def specC5cex : BrowserEngineSpec :=
  { default := none,
    versions := [("20", "EngineB"), ("abc", "EngineX"), ("10", "EngineA")] }

/-- C5 example environment (no fallback tables). -/
def envC5 : Env :=
  { clientList := [], engineRules := [],
    search_by_name := fun _ => none, appHints := fun _ => none }

/-- C5 counterexample: on the table `{"20": EngineB, "abc": EngineX,
"10": EngineA}` — kept as listed by the stable sort, since adjacent pairs
compare equal under the malformed-treated-as-equal comparator — extracted
version 25 selects EngineA, although the qualifying threshold 20 is
semantically strictly greater than 10: the selected engine is not the one
paired with the highest qualifying threshold. -/
theorem c5_threshold_selection_cex :
    browser_engine envC5 "ua" specC5cex "25" = some "EngineA" ∧
    ("20", "EngineB") ∈ specC5cex.versions ∧
    thresholdQual "25" "20" = true ∧
    version_compare "20" "10" = some .gt ∧
    sort_by thresholdLe specC5cex.versions = specC5cex.versions ∧
    thresholdLe ("20", "EngineB") ("abc", "EngineX") = true ∧
    thresholdLe ("abc", "EngineX") ("10", "EngineA") = true :=
  ⟨rfl, by decide, by decide, by decide, rfl, rfl, rfl⟩

/-- C5 (amended): the selection sorts the (threshold, engine) pairs
ascending with malformed or incomparable comparisons treated as equal (no
error) and selects the engine of the last qualifying threshold in that
stable order — always the engine of some table entry whose threshold does
not exceed the extracted version, and exactly the one paired with the
highest such threshold whenever the thresholds are pairwise strictly
ordered under semantic version comparison; if no threshold qualifies the
spec's default engine is used, and an absent or empty result falls through
to the global engine scan with its vocabulary fallback (`engines_lookup`).
The concrete conjuncts check the spec's example `{"10": EngineA,
"20": EngineB}` and a malformed-threshold table in both iteration
orders. -/
theorem c5_threshold_selection :
    (∀ (env : Env) (ua : String) (spec : BrowserEngineSpec) (version : String),
      browser_engine env ua spec version =
        (match lastQual version (sort_by thresholdLe spec.versions) with
         | some q => if q.2 = "" then engines_lookup env ua else some q.2
         | none =>
           if spec.default = none ∨ spec.default = some "" then engines_lookup env ua
           else spec.default)) ∧
    (∀ (env : Env) (ua : String) (spec : BrowserEngineSpec) (version t e : String),
      lastQual version (sort_by thresholdLe spec.versions) = some (t, e) →
      (t, e) ∈ spec.versions ∧ thresholdQual version t = true ∧
      browser_engine env ua spec version =
        (if e = "" then engines_lookup env ua else some e)) ∧
    (∀ (env : Env) (ua : String) (spec : BrowserEngineSpec) (version t e : String),
      spec.versions.Pairwise (fun a b => version_compare a.1 b.1 = some .lt) →
      (t, e) ∈ spec.versions → thresholdQual version t = true →
      (∀ p ∈ spec.versions, thresholdQual version p.1 = true →
        version_compare p.1 t ≠ some .gt) →
      browser_engine env ua spec version =
        (if e = "" then engines_lookup env ua else some e)) ∧
    (∀ (env : Env) (ua : String) (spec : BrowserEngineSpec) (version : String),
      (∀ p ∈ spec.versions, thresholdQual version p.1 = false) →
      browser_engine env ua spec version =
        (if spec.default = none ∨ spec.default = some "" then engines_lookup env ua
         else spec.default)) ∧
    browser_engine envC5 "ua" specC5 "15" = some "EngineA" ∧
    browser_engine envC5 "ua" specC5 "25" = some "EngineB" ∧
    browser_engine envC5 "ua" specC5 "5" = some "EngineD" ∧
    browser_engine envC5 "ua" specC5m "15" = some "EngineA" ∧
    browser_engine envC5 "ua" specC5m2 "15" = some "EngineA" ∧
    browser_engine envC5 "ua" specC5m "5" = some "EngineD" := by
  refine ⟨browser_engine_eq_lastQual, ?_, ?_, ?_, rfl, rfl, rfl, rfl, rfl, rfl⟩
  · intro env ua spec version t e h
    rcases lastQual_mem_qual version h with ⟨hmem, hq⟩
    refine ⟨sort_by_mem hmem, hq, ?_⟩
    rw [browser_engine_eq_lastQual, h]
  · intro env ua spec version t e hsorted hmem hq hmax
    have hle : spec.versions.Pairwise (fun a b => thresholdLe a b = true) := by
      refine hsorted.imp ?_
      intro a b hab
      simp [thresholdLe, hab]
    rw [browser_engine_eq_lastQual]
    rw [sort_by_pairwise_id hle,
      lastQual_max version t e hsorted hmem hq hmax]
  · intro env ua spec version hnone
    rw [browser_engine_eq_lastQual,
      lastQual_of_none version (fun p hp => hnone p (sort_by_mem hp))]

/-- C5 witness: the pairwise-ordered highest-threshold clause applied at the
example spec with extracted version 15, and the no-qualifier clause applied
at the malformed-threshold table with extracted version 7. -/
theorem c5_threshold_selection_witness :
    browser_engine envC5 "ua" specC5 "15" =
      (if "EngineA" = "" then engines_lookup envC5 "ua" else some "EngineA") ∧
    browser_engine envC5 "ua" specC5m "7" =
      (if specC5m.default = none ∨ specC5m.default = some "" then engines_lookup envC5 "ua"
       else specC5m.default) :=
  ⟨c5_threshold_selection.2.2.1 envC5 "ua" specC5 "15" "10" "EngineA"
      (by decide) (by decide) (by decide) (by decide),
   c5_threshold_selection.2.2.2.1 envC5 "ua" specC5m "7" (by decide)⟩
